import Mathlib

/-!
# CMAC (RFC 4493 / NIST SP800-38B) — verification of the Go implementation

Shallow embedding of `cmac.go`: bytes are `Nat` values kept below 256 with
explicit `% 256` where overflow matters, byte slices are `List Nat`, the
underlying block cipher is an opaque record with a block size and an
`encrypt` function.  Fallible construction returns `Option` / `Except`.
-/

set_option maxHeartbeats 1000000

namespace cmac

/-- A block cipher capability: a fixed block size together with a single-block
encryption function (`cipher.Block` in Go). -/
structure BlockCipher where
  blockSize : Nat
  encrypt : List Nat → List Nat

/-- The Go `cipher.Block` contract: `Encrypt` writes exactly `BlockSize` bytes,
and bytes are always below 256. -/
def GoodCipher (c : BlockCipher) : Prop :=
  (∀ b, (c.encrypt b).length = c.blockSize) ∧ (∀ b, ∀ v ∈ c.encrypt b, v < 256)

/-- `for i := range (length n target) { out[i] = a[i] ^ b[i] }`: the element-wise
XOR over the first `n` positions, as used by `block`, `Sum` and the cursor
variant's `Write`.  Out-of-range reads default to 0 (Go would panic; all uses
proved in this file stay in bounds). -/
def xorRange (n : Nat) (a b : List Nat) : List Nat :=
  (List.range n).map fun i => a.getD i 0 ^^^ b.getD i 0

/-- `shifted` from cmac.go: shift the whole byte sequence left one bit, each
byte's vacated low bit filled (via `|=`) from the high bit of the next byte. -/
def shifted : List Nat → List Nat
  | [] => []
  | [a] => [a * 2 % 256]
  | a :: b :: rest => (a * 2 % 256 ||| b / 128) :: shifted (b :: rest)

/-- Go's `subtle.ConstantTimeSelect(v, x, y)` for `v ∈ {0,1}`: `x` if `v = 1`,
else `y` (the Go implementation is branch-free; its value contract is this). -/
def constantTimeSelect (v x y : Nat) : Nat :=
  if v = 1 then x else y

/-- `gensubkey` from cmac.go: shift `l`, then XOR `rb` into the last byte
exactly when the top bit of `l[0]` is set (`byte(...)` cast kept as `% 256`). -/
def gensubkey (l : List Nat) (rb : Nat) : List Nat :=
  let sk := shifted l
  sk.set (sk.length - 1)
    (sk.getD (sk.length - 1) 0 ^^^ constantTimeSelect (l.headD 0 / 128) rb 0 % 256)

/-- `gensubkeys` from cmac.go: pick `Rb` by block size (`panic` for any other
size, modelled as `none`), let `L = encrypt(0^bs)`, `K1 = gensubkey L`,
`K2 = gensubkey K1`. -/
def gensubkeys (c : BlockCipher) : Option (List Nat × List Nat) :=
  (if c.blockSize = 16 then some 0x87
   else if c.blockSize = 8 then some 0x1b
   else none).map fun rb =>
    let l := c.encrypt (List.replicate c.blockSize 0)
    let k1 := gensubkey l rb
    (k1, gensubkey k1 rb)

/-- The `cmac` struct's semantic state (the `tmp` scratch buffer carries no
information across calls and is omitted; the cipher is passed separately). -/
structure CmacState where
  k1 : List Nat
  k2 : List Nat
  buf : List Nat
  x : List Nat
deriving DecidableEq, Repr

/-- `(m *cmac) block(b)`: `tmp = x XOR b` over the block size, then
`x = encrypt(tmp)`. -/
def blockStep (c : BlockCipher) (x b : List Nat) : List Nat :=
  c.encrypt (xorRange c.blockSize x b)

/-- The drain loop of `Write`: while `len(d) > BlockSize`, process the block
`d[:BlockSize]` and drop it from the front.  The `0 < c.blockSize` conjunct
only rules out the nonterminating (never constructed) zero-block-size cipher;
for any positive block size the guard is exactly Go's `len(d) > BlockSize`. -/
def writeLoop (c : BlockCipher) (x d : List Nat) : List Nat × List Nat :=
  if _h : c.blockSize < d.length ∧ 0 < c.blockSize then
    writeLoop c (blockStep c x (d.take c.blockSize)) (d.drop c.blockSize)
  else (x, d)
termination_by d.length
decreasing_by
  simp only [List.length_drop]
  omega

/-- `(m *cmac) Write(b)`: append `b` to the pending buffer, drain full blocks
while strictly more than one block is buffered, return `(len(b), nil)`. -/
def Write (c : BlockCipher) (st : CmacState) (b : List Nat) : CmacState × Nat × Option String :=
  let d := st.buf ++ b
  let r := writeLoop c st.x d
  ({ st with x := r.1, buf := r.2 }, b.length, none)

/-- The `last` block computed by `(m *cmac) Sum`: either `buf XOR K1` (buffer
non-empty and a multiple of the block size) or the `0x80`-padded buffer XOR K2. -/
def sumLast (c : BlockCipher) (st : CmacState) : List Nat :=
  if 0 < st.buf.length ∧ st.buf.length % c.blockSize = 0 then
    xorRange c.blockSize st.buf st.k1
  else
    let copied := st.buf.take c.blockSize ++ List.replicate (c.blockSize - st.buf.length) 0
    let with80 := copied.set st.buf.length 0x80
    xorRange c.blockSize with80 st.k2

/-- `(m *cmac) Sum(b)`: XOR the chaining value into `last`, encrypt, and append
the result to the caller-supplied prefix `b`. -/
def Sum (c : BlockCipher) (st : CmacState) (b : List Nat) : List Nat :=
  b ++ c.encrypt (xorRange c.blockSize (sumLast c st) st.x)

/-- `Sum` viewed as an engine transition: the Go method body assigns no field
of `m` (it writes only the local `last`), so the post-state is the pre-state
reassembled field by field. -/
def SumStep (c : BlockCipher) (st : CmacState) (b : List Nat) : List Nat × CmacState :=
  (Sum c st b, { k1 := st.k1, k2 := st.k2, buf := st.buf, x := st.x })

/-- `(m *cmac) Reset()`: empty the buffer, zero the chaining value. -/
def Reset (c : BlockCipher) (st : CmacState) : CmacState :=
  { st with buf := [], x := List.replicate c.blockSize 0 }

/-- `newcmac`: derive the subkeys (failing where Go's `gensubkeys` panics) and
initialise the state through `Reset`. -/
def newcmac (c : BlockCipher) : Option CmacState :=
  (gensubkeys c).map fun ks => Reset c { k1 := ks.1, k2 := ks.2, buf := [], x := [] }

/-- `NewWithCipher`: accept block sizes 8 and 16, otherwise fail with the
invalid-blocksize error.  (`newcmac` is `some` exactly on sizes 8 and 16, so
the inner `none` branch is dead; it is kept so the model stays total.) -/
def NewWithCipher (c : BlockCipher) : Except String CmacState :=
  if c.blockSize = 8 ∨ c.blockSize = 16 then
    match newcmac c with
    | some st => .ok st
    | none => .error "cmac: invalid blocksize"
  else .error "cmac: invalid blocksize"

/-- `New(key)`: build the AES cipher from the key — `aes.NewCipher` is outside
this repository, so it is passed in as a function — propagating its error
unchanged, then construct through `NewWithCipher`. -/
def New (aesNewCipher : List Nat → Except String BlockCipher) (key : List Nat) :
    Except String CmacState :=
  match aesNewCipher key with
  | .error e => .error e
  | .ok c => NewWithCipher c

/-- States reachable from construction by any sequence of `Write`, `Sum`
and `Reset` calls. -/
inductive Reachable (c : BlockCipher) : CmacState → Prop
  | init (st : CmacState) : newcmac c = some st → Reachable c st
  | write (st : CmacState) (b : List Nat) : Reachable c st → Reachable c (Write c st b).1
  | sum (st : CmacState) (b : List Nat) : Reachable c st → Reachable c (SumStep c st b).2
  | reset (st : CmacState) : Reachable c st → Reachable c (Reset c st)

/-! ## The cursor-based streaming variant

Embedding of the fixed-buffer revision of the engine: `buf` keeps a constant
block-size length, `cursor` counts the meaningful bytes, and `Sum` decides the
K1/K2 branch by `cursor == BlockSize`. -/

/-- The cursor variant's `cmac` struct (its `scratch` field is per-call
scratch space and omitted, like `tmp` above). -/
structure CursorState where
  k1 : List Nat
  k2 : List Nat
  buf : List Nat
  x : List Nat
  cursor : Nat
deriving DecidableEq, Repr

/-- The cursor variant's `Write` loop: while input remains, XOR the (full)
buffer into place, encrypt it into `x`, then refill the buffer from the front
of the input (`cursor = copy(m.buf, b)`).  The `0 < buf.length` conjunct again
only rules out the nonterminating empty-buffer case that the constructor never
produces; with a block-size buffer it is exactly Go's `len(b) > 0`. -/
def cwLoop (c : BlockCipher) (buf x : List Nat) (cur : Nat) (b : List Nat) :
    List Nat × List Nat × Nat :=
  if _h : b ≠ [] ∧ 0 < buf.length then
    let buf1 := xorRange buf.length buf x
    let x1 := c.encrypt buf1
    let n := min buf1.length b.length
    cwLoop c (b.take n ++ buf1.drop n) x1 n (b.drop n)
  else (buf, x, cur)
termination_by b.length
decreasing_by
  simp only [List.length_drop, xorRange, List.length_map, List.length_range]
  rcases _h with ⟨hb, hbuf⟩
  have : 0 < b.length := List.length_pos.mpr hb
  omega

/-- The cursor variant's `(m *cmac) Write(b)`: first `copy(m.buf[m.cursor:], b)`,
then the drain/refill loop. -/
def cursorWrite (c : BlockCipher) (st : CursorState) (b : List Nat) : CursorState × Nat :=
  let n := min (st.buf.length - st.cursor) b.length
  let buf1 := st.buf.take st.cursor ++ b.take n ++ st.buf.drop (st.cursor + n)
  let r := cwLoop c buf1 st.x (st.cursor + n) (b.drop n)
  ({ st with buf := r.1, x := r.2.1, cursor := r.2.2 }, b.length)

/-- The cursor variant's `(m *cmac) Sum(b)`: the appended block-size scratch
area (`switch` panics on any size other than 8/16, modelled as `none`), filled
with `buf XOR K1` when `cursor == BlockSize`, else with the piecewise
`0x80`-padded `buf XOR K2`; then XOR `x`, encrypt in place, return the
extended prefix. -/
def cursorSum (c : BlockCipher) (st : CursorState) (b : List Nat) : Option (List Nat) :=
  if c.blockSize = 8 ∨ c.blockSize = 16 then
    let scratch :=
      if st.cursor = c.blockSize then
        xorRange c.blockSize st.buf st.k1
      else
        (List.range c.blockSize).map fun i =>
          if i < st.cursor then st.buf.getD i 0 ^^^ st.k2.getD i 0
          else if i = st.cursor then 0x80 ^^^ st.k2.getD i 0
          else st.k2.getD i 0
    some (b ++ c.encrypt (xorRange c.blockSize scratch st.x))
  else none

/-- The cursor variant's `(m *cmac) Reset()`: zero every byte of `buf` and `x`
(both have block-size length), reset the cursor. -/
def cursorReset (c : BlockCipher) (st : CursorState) : CursorState :=
  { st with buf := List.replicate c.blockSize 0,
            x := List.replicate c.blockSize 0,
            cursor := 0 }

/-- The cursor variant's `newcmac`: derive subkeys, allocate block-size `buf`
and `x`, initialise through `Reset`. -/
def cursorNew (c : BlockCipher) : Option CursorState :=
  (gensubkeys c).map fun ks =>
    cursorReset c { k1 := ks.1, k2 := ks.2, buf := List.replicate c.blockSize 0,
                    x := List.replicate c.blockSize 0, cursor := 0 }

/-! ## Basic lemmas -/

theorem length_xorRange (n : Nat) (a b : List Nat) : (xorRange n a b).length = n := by
  simp [xorRange]

theorem getD_xorRange {n i : Nat} (a b : List Nat) (h : i < n) :
    (xorRange n a b).getD i 0 = a.getD i 0 ^^^ b.getD i 0 := by
  rw [List.getD_eq_getElem _ _ (by simpa [length_xorRange] using h)]
  simp [xorRange]

theorem xorRange_comm (n : Nat) (a b : List Nat) : xorRange n a b = xorRange n b a := by
  simp only [xorRange]
  apply List.map_congr_left
  intro i _
  exact Nat.xor_comm _ _

theorem xorRange_congr_left {n : Nat} {a a' : List Nat} (b : List Nat)
    (h : ∀ i < n, a.getD i 0 = a'.getD i 0) : xorRange n a b = xorRange n a' b := by
  simp only [xorRange]
  apply List.map_congr_left
  intro i hi
  rw [h i (List.mem_range.mp hi)]

theorem set_getD_self : ∀ (l : List Nat) (i : Nat), l.set i (l.getD i 0) = l := by
  intro l
  induction l with
  | nil => intro i; rfl
  | cons a t ih =>
    intro i
    cases i with
    | zero => simp
    | succ j =>
      show a :: t.set j (t.getD j 0) = a :: t
      rw [ih]

theorem lor_of_even_le_one {x y : Nat} (hx : x % 2 = 0) (hy : y ≤ 1) : x ||| y = x + y := by
  interval_cases y
  · simp
  · apply Nat.eq_of_testBit_eq
    intro i
    cases i with
    | zero => simp [Nat.testBit_zero]; omega
    | succ j =>
      rw [Nat.testBit_or]
      simp [Nat.testBit_add_one]
      congr 1
      omega

/-! ## The `Write` drain loop -/

theorem writeLoop_step {c : BlockCipher} {x d : List Nat}
    (h : c.blockSize < d.length ∧ 0 < c.blockSize) :
    writeLoop c x d = writeLoop c (blockStep c x (d.take c.blockSize)) (d.drop c.blockSize) := by
  conv_lhs => rw [writeLoop]
  rw [dif_pos h]

theorem writeLoop_base {c : BlockCipher} {x d : List Nat}
    (h : ¬(c.blockSize < d.length ∧ 0 < c.blockSize)) : writeLoop c x d = (x, d) := by
  conv_lhs => rw [writeLoop]
  rw [dif_neg h]

theorem writeLoop_of_le {c : BlockCipher} {x d : List Nat} (h : d.length ≤ c.blockSize) :
    writeLoop c x d = (x, d) :=
  writeLoop_base (by omega)

theorem writeLoop_buf_le {c : BlockCipher} (hbs : 0 < c.blockSize) (x d : List Nat) :
    ((writeLoop c x d).2).length ≤ c.blockSize := by
  induction x, d using writeLoop.induct c with
  | case1 x d hg ih =>
    rw [writeLoop_step hg]
    exact ih
  | case2 x d hg =>
    rw [writeLoop_base hg]
    simp only
    omega

theorem writeLoop_x_length {c : BlockCipher} (hc : GoodCipher c) (x d : List Nat)
    (hx : x.length = c.blockSize) : ((writeLoop c x d).1).length = c.blockSize := by
  induction x, d using writeLoop.induct c with
  | case1 x d hg ih =>
    rw [writeLoop_step hg]
    exact ih (hc.1 _)
  | case2 x d hg =>
    rw [writeLoop_base hg]
    exact hx

theorem writeLoop_append (c : BlockCipher) (x d e : List Nat) :
    writeLoop c x (d ++ e) =
      writeLoop c (writeLoop c x d).1 ((writeLoop c x d).2 ++ e) := by
  induction x, d using writeLoop.induct c with
  | case1 x d hg ih =>
    have hg' : c.blockSize < (d ++ e).length ∧ 0 < c.blockSize := by
      simp only [List.length_append]
      omega
    rw [writeLoop_step hg', List.take_append_of_le_length (by omega),
      List.drop_append_of_le_length (by omega), ih, writeLoop_step hg]
  | case2 x d hg =>
    rw [writeLoop_base hg]

/-- The first `k` block-size chunks of `d` (what the drain loop consumes when
it runs `k` times). -/
def toBlocks (bs : Nat) : Nat → List Nat → List (List Nat)
  | 0, _ => []
  | k + 1, d => d.take bs :: toBlocks bs k (d.drop bs)

theorem writeLoop_blocks {c : BlockCipher} (hbs : 0 < c.blockSize) :
    ∀ (j : Nat) (x d : List Nat), d.length = (j + 1) * c.blockSize →
      writeLoop c x d =
        (List.foldl (blockStep c) x (toBlocks c.blockSize j d), d.drop (j * c.blockSize)) := by
  intro j
  induction j with
  | zero =>
    intro x d hd
    rw [writeLoop_of_le (by omega)]
    simp [toBlocks]
  | succ k ih =>
    intro x d hd
    have hexp : d.length = (k + 1) * c.blockSize + c.blockSize := by
      rw [hd]
      ring
    have hlt : c.blockSize < d.length := by nlinarith
    rw [writeLoop_step ⟨hlt, hbs⟩]
    rw [ih _ _ (by simp only [List.length_drop]; omega)]
    simp only [toBlocks, List.foldl_cons, List.drop_drop]
    congr 2
    ring


/-! ## getD helper lemmas -/

theorem getD_set_self {l : List Nat} {n : Nat} (a : Nat) (h : n < l.length) :
    (l.set n a).getD n 0 = a := by
  rw [List.getD_eq_getElem?_getD, List.getElem?_set_self h]
  rfl

theorem getD_set_ne {l : List Nat} {n m : Nat} (a : Nat) (h : n ≠ m) :
    (l.set n a).getD m 0 = l.getD m 0 := by
  rw [List.getD_eq_getElem?_getD, List.getElem?_set_ne h, ← List.getD_eq_getElem?_getD]

theorem getD_take_of_lt {l : List Nat} {n m : Nat} (h : m < n) :
    (l.take n).getD m 0 = l.getD m 0 := by
  rw [List.getD_eq_getElem?_getD, List.getElem?_take_of_lt h, ← List.getD_eq_getElem?_getD]

theorem getD_replicate_zero (r i : Nat) : (List.replicate r (0 : Nat)).getD i 0 = 0 := by
  rw [List.getD_eq_getElem?_getD, List.getElem?_getD_replicate_default_eq]

/-! ## Reachability lemmas -/

theorem length_shifted : ∀ l : List Nat, (shifted l).length = l.length
  | [] => rfl
  | [_] => rfl
  | a :: b :: rest => by
    simp only [shifted, List.length_cons]
    rw [length_shifted (b :: rest)]
    simp

theorem length_gensubkey (l : List Nat) (rb : Nat) : (gensubkey l rb).length = l.length := by
  simp [gensubkey, length_shifted]

theorem gensubkeys_spec {c : BlockCipher} {ks : List Nat × List Nat}
    (h : gensubkeys c = some ks) :
    (c.blockSize = 8 ∨ c.blockSize = 16) ∧
    ks.1 = gensubkey (c.encrypt (List.replicate c.blockSize 0))
            (if c.blockSize = 16 then 0x87 else 0x1b) ∧
    ks.2 = gensubkey ks.1 (if c.blockSize = 16 then 0x87 else 0x1b) := by
  by_cases h16 : c.blockSize = 16
  · unfold gensubkeys at h
    rw [if_pos h16] at h
    simp only [Option.map, Option.some_inj] at h
    rw [← h]
    simp [h16]
  · by_cases h8 : c.blockSize = 8
    · unfold gensubkeys at h
      rw [if_neg h16, if_pos h8] at h
      simp only [Option.map, Option.some_inj] at h
      rw [← h]
      simp [h16, h8]
    · simp [gensubkeys, h16, h8] at h

theorem gensubkeys_lengths {c : BlockCipher} {ks : List Nat × List Nat}
    (hc : GoodCipher c) (h : gensubkeys c = some ks) :
    ks.1.length = c.blockSize ∧ ks.2.length = c.blockSize := by
  obtain ⟨-, h1, h2⟩ := gensubkeys_spec h
  constructor
  · rw [h1, length_gensubkey, hc.1]
  · rw [h2, length_gensubkey, h1, length_gensubkey, hc.1]

theorem newcmac_spec {c : BlockCipher} {st : CmacState} (h : newcmac c = some st) :
    ∃ ks, gensubkeys c = some ks ∧
      st = { k1 := ks.1, k2 := ks.2, buf := [], x := List.replicate c.blockSize 0 } := by
  cases hg : gensubkeys c with
  | none => simp [newcmac, hg] at h
  | some ks =>
    refine ⟨ks, rfl, ?_⟩
    simp only [newcmac, hg, Option.map, Option.some_inj] at h
    rw [← h]
    rfl

theorem reachable_blockSize {c : BlockCipher} {st : CmacState} (hr : Reachable c st) :
    c.blockSize = 8 ∨ c.blockSize = 16 := by
  induction hr with
  | init st h =>
    obtain ⟨ks, hks, -⟩ := newcmac_spec h
    exact (gensubkeys_spec hks).1
  | write st b _ ih => exact ih
  | sum st b _ ih => exact ih
  | reset st _ ih => exact ih

theorem reachable_keys {c : BlockCipher} {st st₀ : CmacState} (hr : Reachable c st)
    (h0 : newcmac c = some st₀) : st.k1 = st₀.k1 ∧ st.k2 = st₀.k2 := by
  induction hr with
  | init st h =>
    rw [h0] at h
    cases h
    exact ⟨rfl, rfl⟩
  | write st b _ ih => exact ih
  | sum st b _ ih => exact ih
  | reset st _ ih => exact ih

theorem reachable_buf_le {c : BlockCipher} {st : CmacState} (hr : Reachable c st) :
    st.buf.length ≤ c.blockSize := by
  induction hr with
  | init st h =>
    obtain ⟨ks, -, hst⟩ := newcmac_spec h
    subst hst
    simp
  | write st b hsub ih =>
    have hbs : 0 < c.blockSize := by
      rcases reachable_blockSize hsub with h | h <;> omega
    exact writeLoop_buf_le hbs _ _
  | sum st b _ ih => exact ih
  | reset st _ ih => simp [Reset]

theorem inv_reachable {c : BlockCipher} {st : CmacState} (hc : GoodCipher c)
    (hr : Reachable c st) :
    st.k1.length = c.blockSize ∧ st.k2.length = c.blockSize ∧
    st.x.length = c.blockSize ∧ st.buf.length ≤ c.blockSize := by
  refine ⟨?_, ?_, ?_, reachable_buf_le hr⟩ <;>
  · induction hr with
    | init st h =>
      obtain ⟨ks, hks, hst⟩ := newcmac_spec h
      obtain ⟨h1, h2⟩ := gensubkeys_lengths hc hks
      subst hst
      simp [h1, h2]
    | write st b hsub ih =>
      first
      | exact ih
      | exact writeLoop_x_length hc _ _ ih
    | sum st b _ ih => exact ih
    | reset st _ ih =>
      first
      | simpa [Reset] using ih
      | simp [Reset]

/-! ## Concrete instances used by witnesses -/

/-- A concrete well-formed 8-byte block cipher. -/
def sampleCipher : BlockCipher :=
  { blockSize := 8
    encrypt := fun b => List.replicate 8 ((b.foldl (fun a v => (a + 3 * v + 1) % 256) 5) % 256) }

theorem sampleCipher_good : GoodCipher sampleCipher := by
  constructor
  · intro b
    simp [sampleCipher]
  · intro b v hv
    simp [sampleCipher, List.mem_replicate] at hv
    omega

/-- The engine state `newcmac` builds over `sampleCipher`. -/
def sampleState : CmacState :=
  { k1 := [26, 26, 26, 26, 26, 26, 26, 26]
    k2 := [52, 52, 52, 52, 52, 52, 52, 52]
    buf := []
    x := [0, 0, 0, 0, 0, 0, 0, 0] }

theorem sampleState_new : newcmac sampleCipher = some sampleState := by decide

/-- A cipher with an unsupported block size. -/
def badCipher : BlockCipher := { blockSize := 12, encrypt := fun b => b }

/-! ## Claim theorems -/

/-- C8: in every state reachable from construction by `Write`/`Sum`/`Reset`,
the subkeys and the chaining value have block-size length and the pending
buffer holds between 0 and block-size bytes. -/
theorem claim_state_invariant (c : BlockCipher) (st : CmacState) (hc : GoodCipher c)
    (hr : Reachable c st) :
    st.k1.length = c.blockSize ∧ st.k2.length = c.blockSize ∧
    st.x.length = c.blockSize ∧ st.buf.length ≤ c.blockSize :=
  inv_reachable hc hr

/-- Witness for C8 at the sample cipher's freshly constructed state. -/
theorem claim_state_invariant_witness :
    sampleState.k1.length = sampleCipher.blockSize ∧
    sampleState.k2.length = sampleCipher.blockSize ∧
    sampleState.x.length = sampleCipher.blockSize ∧
    sampleState.buf.length ≤ sampleCipher.blockSize :=
  claim_state_invariant sampleCipher sampleState sampleCipher_good
    (Reachable.init _ sampleState_new)

/-- C10: whenever `Sum`'s K1 guard fails in a reachable state, the pending
buffer is strictly shorter than the block size, so the `last[len(buf)] = 0x80`
write lands inside the block-size `last` array. -/
theorem claim_pad_in_bounds (c : BlockCipher) (st : CmacState) (hr : Reachable c st)
    (hg : ¬(0 < st.buf.length ∧ st.buf.length % c.blockSize = 0)) :
    st.buf.length < c.blockSize ∧
    st.buf.length <
      (st.buf.take c.blockSize ++ List.replicate (c.blockSize - st.buf.length) 0).length := by
  have hle := reachable_buf_le hr
  have hbs : 0 < c.blockSize := by
    rcases reachable_blockSize hr with h | h <;> omega
  have hlt : st.buf.length < c.blockSize := by
    rcases Nat.lt_or_ge st.buf.length c.blockSize with h | h
    · exact h
    · exact absurd ⟨by omega, by rw [le_antisymm hle h]; exact Nat.mod_self _⟩ hg
  refine ⟨hlt, ?_⟩
  simp only [List.length_append, List.length_take, List.length_replicate]
  omega

/-- Witness for C10: the freshly constructed state (empty buffer). -/
theorem claim_pad_in_bounds_witness :
    sampleState.buf.length < sampleCipher.blockSize ∧
    sampleState.buf.length <
      (sampleState.buf.take sampleCipher.blockSize ++
        List.replicate (sampleCipher.blockSize - sampleState.buf.length) 0).length :=
  claim_pad_in_bounds sampleCipher sampleState (Reachable.init _ sampleState_new) (by decide)

/-- C2: `Write` of data making the total buffered length a nonzero multiple of
the block size chains `X = encrypt(X XOR block)` over all blocks but the last
(`blockStep` is the `block` method), leaves exactly the final full block in
the buffer, and returns `(len(input), nil)` on every input. -/
theorem claim_write_drain (c : BlockCipher) (st : CmacState) (b : List Nat) (j : Nat)
    (hbs : 0 < c.blockSize) (hj : 1 ≤ j) (hlen : (st.buf ++ b).length = j * c.blockSize) :
    (Write c st b).1.x =
      List.foldl (blockStep c) st.x (toBlocks c.blockSize (j - 1) (st.buf ++ b)) ∧
    (Write c st b).1.buf = (st.buf ++ b).drop ((j - 1) * c.blockSize) ∧
    (Write c st b).1.buf.length = c.blockSize ∧
    ∀ b' : List Nat, (Write c st b').2 = (b'.length, none) := by
  obtain ⟨k, rfl⟩ : ∃ k, j = k + 1 := ⟨j - 1, by omega⟩
  have hw := writeLoop_blocks hbs k st.x (st.buf ++ b) hlen
  refine ⟨?_, ?_, ?_, fun b' => rfl⟩
  · show (writeLoop c st.x (st.buf ++ b)).1 = _
    rw [hw]
    simp
  · show (writeLoop c st.x (st.buf ++ b)).2 = _
    rw [hw]
    simp
  · show (writeLoop c st.x (st.buf ++ b)).2.length = _
    rw [hw]
    simp only [List.length_drop, hlen]
    have : (k + 1) * c.blockSize = k * c.blockSize + c.blockSize := by ring
    omega

/-- Witness for C2: a two-block message on the sample cipher. -/
theorem claim_write_drain_witness :
    (Write sampleCipher sampleState
        [1, 2, 3, 4, 5, 6, 7, 8, 9, 10, 11, 12, 13, 14, 15, 16]).1.x =
      List.foldl (blockStep sampleCipher) sampleState.x
        (toBlocks sampleCipher.blockSize 1
          (sampleState.buf ++ [1, 2, 3, 4, 5, 6, 7, 8, 9, 10, 11, 12, 13, 14, 15, 16])) ∧
    (Write sampleCipher sampleState
        [1, 2, 3, 4, 5, 6, 7, 8, 9, 10, 11, 12, 13, 14, 15, 16]).1.buf =
      (sampleState.buf ++ [1, 2, 3, 4, 5, 6, 7, 8, 9, 10, 11, 12, 13, 14, 15, 16]).drop
        (1 * sampleCipher.blockSize) ∧
    (Write sampleCipher sampleState
        [1, 2, 3, 4, 5, 6, 7, 8, 9, 10, 11, 12, 13, 14, 15, 16]).1.buf.length =
      sampleCipher.blockSize ∧
    ∀ b' : List Nat, (Write sampleCipher sampleState b').2 = (b'.length, none) := by
  have h := claim_write_drain sampleCipher sampleState
    [1, 2, 3, 4, 5, 6, 7, 8, 9, 10, 11, 12, 13, 14, 15, 16] 2
    (by decide) (by decide) (by decide)
  simpa using h

/-- C7: `Sum` leaves the engine state unchanged, and a repeated `Sum` with no
intervening `Write` or `Reset` returns the same tag. -/
theorem claim_sum_frame (c : BlockCipher) (st : CmacState) (b : List Nat) :
    (SumStep c st b).2 = st ∧
    (SumStep c (SumStep c st b).2 b).1 = (SumStep c st b).1 := by
  cases st
  exact ⟨rfl, rfl⟩

/-- C5: `NewWithCipher` rejects any block size other than 8 and 16 without
depending on the cipher's encryption function (two ciphers agreeing on an
unsupported block size are rejected identically), succeeds on 8 and 16, and
`New` passes `aes.NewCipher` errors through unchanged. -/
theorem claim_construction (c : BlockCipher)
    (aesNewCipher : List Nat → Except String BlockCipher) (key : List Nat) (e : String) :
    (c.blockSize ≠ 8 ∧ c.blockSize ≠ 16 →
      NewWithCipher c = .error "cmac: invalid blocksize" ∧
      ∀ c' : BlockCipher, c'.blockSize = c.blockSize → NewWithCipher c' = NewWithCipher c) ∧
    (c.blockSize = 8 ∨ c.blockSize = 16 → ∃ st, NewWithCipher c = .ok st) ∧
    (aesNewCipher key = .error e → New aesNewCipher key = .error e) := by
  refine ⟨?_, ?_, ?_⟩
  · rintro ⟨h8, h16⟩
    have hne : ¬(c.blockSize = 8 ∨ c.blockSize = 16) := by tauto
    refine ⟨by simp [NewWithCipher, hne], ?_⟩
    intro c' hbs
    have hne' : ¬(c'.blockSize = 8 ∨ c'.blockSize = 16) := by
      rw [hbs]
      exact hne
    simp [NewWithCipher, hne, hne']
  · intro h
    obtain ⟨ks, hks⟩ : ∃ ks, gensubkeys c = some ks := by
      rcases h with h | h
      · exact ⟨_, by unfold gensubkeys; rw [if_neg (by omega), if_pos h]; rfl⟩
      · exact ⟨_, by unfold gensubkeys; rw [if_pos h]; rfl⟩
    refine ⟨Reset c { k1 := ks.1, k2 := ks.2, buf := [], x := [] }, ?_⟩
    simp [NewWithCipher, if_pos h, newcmac, hks, Option.map]
  · intro h
    simp [New, h]

/-- Witness for C5: a 12-byte-block cipher is rejected, the sample cipher is
accepted, and a failing key constructor's error is surfaced unchanged. -/
theorem claim_construction_witness :
    NewWithCipher badCipher = .error "cmac: invalid blocksize" ∧
    (∃ st, NewWithCipher sampleCipher = .ok st) ∧
    New (fun _ => .error "bad key length") [] = .error "bad key length" :=
  ⟨((claim_construction badCipher (fun _ => .error "x") [] "x").1 (by decide)).1,
   (claim_construction sampleCipher (fun _ => .error "x") [] "x").2.1 (Or.inl rfl),
   (claim_construction badCipher (fun _ => .error "bad key length") []
     "bad key length").2.2 rfl⟩

/-! ## Streaming composition (C4) and reset round trip (C6) -/

theorem write_write (c : BlockCipher) (st : CmacState) (b1 b2 : List Nat) :
    (Write c (Write c st b1).1 b2).1 = (Write c st (b1 ++ b2)).1 := by
  cases st
  simp only [Write, ← List.append_assoc]
  rw [← writeLoop_append]

theorem write_nil (c : BlockCipher) (st : CmacState) (hbuf : st.buf.length ≤ c.blockSize) :
    (Write c st []).1 = st := by
  cases st
  simp only [Write, List.append_nil]
  rw [writeLoop_of_le hbuf]

theorem foldl_write (c : BlockCipher) :
    ∀ (cs : List (List Nat)) (st : CmacState), cs ≠ [] →
      cs.foldl (fun s ci => (Write c s ci).1) st = (Write c st cs.flatten).1
  | [], _, hne => absurd rfl hne
  | [c1], st, _ => by
    simp [List.flatten]
  | c1 :: c2 :: rest, st, _ => by
    show (c2 :: rest).foldl (fun s ci => (Write c s ci).1) (Write c st c1).1 = _
    rw [foldl_write c (c2 :: rest) (Write c st c1).1 (by simp), write_write]
    simp [List.flatten]

/-- C4: feeding any chunking of a message through successive `Write` calls and
then `Sum` produces the same tag as a single `Write` of the concatenation
followed by `Sum` (block-aligned and off-by-one chunk boundaries included). -/
theorem claim_streaming_equivalence (c : BlockCipher) (st : CmacState) (b : List Nat)
    (cs : List (List Nat)) (hr : Reachable c st) :
    Sum c (cs.foldl (fun s ci => (Write c s ci).1) st) b =
      Sum c (Write c st cs.flatten).1 b := by
  cases cs with
  | nil =>
    rw [show (([] : List (List Nat)).flatten) = [] from rfl,
      write_nil c st (reachable_buf_le hr)]
    rfl
  | cons c1 rest =>
    rw [foldl_write c (c1 :: rest) st (by simp)]

/-- Witness for C4: a 17-byte message split at a block boundary, one byte
before it, and one byte past it, on the sample cipher. -/
theorem claim_streaming_equivalence_witness :
    (Sum sampleCipher
        ([[1, 2, 3, 4, 5, 6, 7, 8], [9, 10, 11, 12, 13, 14, 15, 16, 17]].foldl
          (fun s ci => (Write sampleCipher s ci).1) sampleState) [] =
      Sum sampleCipher
        (Write sampleCipher sampleState
          [[1, 2, 3, 4, 5, 6, 7, 8], [9, 10, 11, 12, 13, 14, 15, 16, 17]].flatten).1 []) ∧
    (Sum sampleCipher
        ([[1, 2, 3, 4, 5, 6, 7], [8, 9, 10, 11, 12, 13, 14, 15, 16, 17]].foldl
          (fun s ci => (Write sampleCipher s ci).1) sampleState) [] =
      Sum sampleCipher
        (Write sampleCipher sampleState
          [[1, 2, 3, 4, 5, 6, 7], [8, 9, 10, 11, 12, 13, 14, 15, 16, 17]].flatten).1 []) ∧
    (Sum sampleCipher
        ([[1, 2, 3, 4, 5, 6, 7, 8, 9], [10, 11, 12, 13, 14, 15, 16, 17]].foldl
          (fun s ci => (Write sampleCipher s ci).1) sampleState) [] =
      Sum sampleCipher
        (Write sampleCipher sampleState
          [[1, 2, 3, 4, 5, 6, 7, 8, 9], [10, 11, 12, 13, 14, 15, 16, 17]].flatten).1 []) :=
  ⟨claim_streaming_equivalence sampleCipher sampleState []
      [[1, 2, 3, 4, 5, 6, 7, 8], [9, 10, 11, 12, 13, 14, 15, 16, 17]]
      (Reachable.init _ sampleState_new),
   claim_streaming_equivalence sampleCipher sampleState []
      [[1, 2, 3, 4, 5, 6, 7], [8, 9, 10, 11, 12, 13, 14, 15, 16, 17]]
      (Reachable.init _ sampleState_new),
   claim_streaming_equivalence sampleCipher sampleState []
      [[1, 2, 3, 4, 5, 6, 7, 8, 9], [10, 11, 12, 13, 14, 15, 16, 17]]
      (Reachable.init _ sampleState_new)⟩

/-- C6: `Reset` zeroes the chaining value and empties the buffer while keeping
both subkeys, and `Write m1; Reset; Write m2; Sum` equals a fresh engine's
`Write m2; Sum`. -/
theorem claim_reset_roundtrip (c : BlockCipher) (st st₀ : CmacState)
    (m1 m2 b : List Nat) (hr : Reachable c st) (h0 : newcmac c = some st₀) :
    (Reset c st).k1 = st.k1 ∧ (Reset c st).k2 = st.k2 ∧
    (Reset c st).buf = [] ∧ (Reset c st).x = List.replicate c.blockSize 0 ∧
    Sum c (Write c (Reset c (Write c st m1).1) m2).1 b =
      Sum c (Write c st₀ m2).1 b := by
  refine ⟨rfl, rfl, rfl, rfl, ?_⟩
  obtain ⟨hk1, hk2⟩ := reachable_keys hr h0
  obtain ⟨ks, hks, hst₀⟩ := newcmac_spec h0
  have : Reset c (Write c st m1).1 = st₀ := by
    subst hst₀
    cases st
    simp only [Reset, Write]
    simp_all
  rw [this]

/-- Witness for C6 on the sample cipher. -/
theorem claim_reset_roundtrip_witness :
    (Reset sampleCipher sampleState).k1 = sampleState.k1 ∧
    (Reset sampleCipher sampleState).k2 = sampleState.k2 ∧
    (Reset sampleCipher sampleState).buf = [] ∧
    (Reset sampleCipher sampleState).x = List.replicate sampleCipher.blockSize 0 ∧
    Sum sampleCipher
        (Write sampleCipher
          (Reset sampleCipher (Write sampleCipher sampleState [1, 2, 3]).1) [4, 5]).1 [] =
      Sum sampleCipher (Write sampleCipher sampleState [4, 5]).1 [] :=
  claim_reset_roundtrip sampleCipher sampleState sampleState [1, 2, 3] [4, 5] []
    (Reachable.init _ sampleState_new) sampleState_new

/-! ## Sum finalization against the specified rule (C1) -/

/-- The finalization rule as the specification words it: if the pending buffer
holds exactly one full block (the accumulated message was non-empty and
block-aligned), `last = buffer XOR K1`; otherwise the buffer is extended by a
single `0x80` byte, zero-filled to block size, and XORed with K2. -/
def specLastBlock (c : BlockCipher) (st : CmacState) : List Nat :=
  if st.buf.length = c.blockSize ∧ st.buf ≠ [] then
    xorRange c.blockSize st.buf st.k1
  else
    xorRange c.blockSize
      (st.buf ++ 0x80 :: List.replicate (c.blockSize - st.buf.length - 1) 0) st.k2

theorem buf_lt_of_not_guard {bs len : Nat} (hbs : 0 < bs) (hle : len ≤ bs)
    (hg : ¬(0 < len ∧ len % bs = 0)) : len < bs := by
  rcases Nat.lt_or_ge len bs with h | h
  · exact h
  · exact absurd ⟨by omega, by rw [le_antisymm hle h]; exact Nat.mod_self _⟩ hg

theorem sum_guard_iff {bs : Nat} {buf : List Nat} (hbs : 0 < bs)
    (hle : buf.length ≤ bs) :
    (0 < buf.length ∧ buf.length % bs = 0) ↔ (buf.length = bs ∧ buf ≠ []) := by
  constructor
  · rintro ⟨hpos, hmod⟩
    have hdvd : bs ∣ buf.length := Nat.dvd_of_mod_eq_zero hmod
    have hge : bs ≤ buf.length := Nat.le_of_dvd hpos hdvd
    exact ⟨le_antisymm hle hge, by rw [← List.length_pos]; omega⟩
  · rintro ⟨heq, -⟩
    exact ⟨by omega, by rw [heq]; exact Nat.mod_self _⟩

theorem padded_getD {bs : Nat} {buf : List Nat} (hlt : buf.length < bs) :
    ∀ i < bs,
      ((buf.take bs ++ List.replicate (bs - buf.length) 0).set buf.length 0x80).getD i 0 =
        (buf ++ 0x80 :: List.replicate (bs - buf.length - 1) 0).getD i 0 := by
  intro i hi
  rw [List.take_of_length_le (Nat.le_of_lt hlt)]
  rcases Nat.lt_trichotomy i buf.length with hc | hc | hc
  · rw [getD_set_ne _ (by omega), List.getD_append _ _ _ _ hc, List.getD_append _ _ _ _ hc]
  · subst hc
    rw [getD_set_self _ (by simp; omega),
      List.getD_append_right _ _ _ _ (Nat.le_refl _), Nat.sub_self, List.getD_cons_zero]
  · rw [getD_set_ne _ (by omega), List.getD_append_right _ _ _ _ (by omega),
      List.getD_append_right _ _ _ _ (by omega), getD_replicate_zero]
    obtain ⟨k, hk⟩ : ∃ k, i - buf.length = k + 1 := ⟨i - buf.length - 1, by omega⟩
    rw [hk, List.getD_cons_succ, getD_replicate_zero]

theorem sumLast_eq_spec {c : BlockCipher} {st : CmacState} (hr : Reachable c st) :
    sumLast c st = specLastBlock c st := by
  have hbs : 0 < c.blockSize := by
    rcases reachable_blockSize hr with h | h <;> omega
  have hle := reachable_buf_le hr
  by_cases hg : 0 < st.buf.length ∧ st.buf.length % c.blockSize = 0
  · rw [sumLast, if_pos hg, specLastBlock, if_pos ((sum_guard_iff hbs hle).mp hg)]
  · rw [sumLast, if_neg hg, specLastBlock,
      if_neg (fun h => hg ((sum_guard_iff hbs hle).mpr h))]
    exact xorRange_congr_left _ (padded_getD (buf_lt_of_not_guard hbs hle hg))

/-- C1: in every reachable state, `Sum` returns the caller's prefix followed by
`encrypt(last XOR X)` where `last` follows the specification's K1/K2 padding
rule (`specLastBlock`). -/
theorem claim_sum_finalization (c : BlockCipher) (st : CmacState) (b : List Nat)
    (hr : Reachable c st) :
    Sum c st b = b ++ c.encrypt (xorRange c.blockSize (specLastBlock c st) st.x) := by
  rw [Sum, sumLast_eq_spec hr]

/-- Witness for C1: the freshly constructed sample state (empty message,
padding branch). -/
theorem claim_sum_finalization_witness :
    Sum sampleCipher sampleState [9] =
      [9] ++ sampleCipher.encrypt
        (xorRange sampleCipher.blockSize (specLastBlock sampleCipher sampleState)
          sampleState.x) :=
  claim_sum_finalization sampleCipher sampleState [9] (Reachable.init _ sampleState_new)

/-! ## Subkey derivation against the specified doubling rule (C3) -/

/-- All positions of the list read as bytes (out-of-range reads give the
default 0, which is a byte). -/
def Bytes (l : List Nat) : Prop := ∀ i, l.getD i 0 < 256

/-- The left shift as the specification words it: every byte shifted left one
bit with its top bit lost, the vacated low bit filled from the high bit of the
next byte (0 past the end of the sequence). -/
def specShift (v : List Nat) : List Nat :=
  (List.range v.length).map fun i => v.getD i 0 % 128 * 2 + v.getD (i + 1) 0 / 128

/-- The doubling operation as the specification words it: `specShift`, then XOR
`rb` into the last byte exactly when the most-significant bit of the original
sequence was 1. -/
def specDouble (rb : Nat) (v : List Nat) : List Nat :=
  if 128 ≤ v.headD 0 then
    (specShift v).set (v.length - 1) ((specShift v).getD (v.length - 1) 0 ^^^ rb)
  else specShift v

theorem bytes_of_mem {l : List Nat} (h : ∀ v ∈ l, v < 256) : Bytes l := by
  intro i
  rcases Nat.lt_or_ge i l.length with hi | hi
  · rw [List.getD_eq_getElem _ _ hi]
    exact h _ (List.getElem_mem hi)
  · rw [List.getD_eq_default _ _ hi]
    omega

theorem bytes_cons {a : Nat} {l : List Nat} (h : Bytes (a :: l)) : a < 256 ∧ Bytes l := by
  refine ⟨h 0, fun i => ?_⟩
  have := h (i + 1)
  rwa [List.getD_cons_succ] at this

theorem getD_zero_eq_headD (l : List Nat) : l.getD 0 0 = l.headD 0 := by
  cases l <;> rfl

theorem specShift_cons (a : Nat) (l : List Nat) :
    specShift (a :: l) = (a % 128 * 2 + l.headD 0 / 128) :: specShift l := by
  simp only [specShift, List.length_cons, List.range_succ_eq_map, List.map_cons,
    List.map_map]
  congr 1
  rw [List.getD_cons_zero, List.getD_cons_succ, getD_zero_eq_headD]

theorem shifted_eq_specShift : ∀ l : List Nat, Bytes l → shifted l = specShift l
  | [], _ => rfl
  | [a], _ => by
    simp only [shifted, specShift, List.length_cons, List.length_nil]
    rw [show List.range 1 = [0] from rfl]
    simp only [List.map_cons, List.map_nil, List.getD_cons_zero]
    rw [show ([a] : List Nat).getD 1 0 = 0 from rfl]
    congr 1
    omega
  | a :: b :: rest, hb => by
    obtain ⟨ha, hb'⟩ := bytes_cons hb
    have hbv := (bytes_cons hb').1
    rw [shifted, specShift_cons, shifted_eq_specShift (b :: rest) hb']
    congr 1
    rw [List.headD_cons]
    rw [lor_of_even_le_one (by omega) (by omega)]
    omega

theorem bytes_specShift {l : List Nat} (hb : Bytes l) : Bytes (specShift l) := by
  intro i
  rcases Nat.lt_or_ge i l.length with hi | hi
  · rw [List.getD_eq_getElem _ _ (by simpa [specShift] using hi)]
    simp only [specShift, List.getElem_map, List.getElem_range]
    have h1 := hb i
    have h2 := hb (i + 1)
    omega
  · rw [List.getD_eq_default _ _ (by simpa [specShift] using hi)]
    omega

theorem bytes_specDouble {rb : Nat} {l : List Nat} (hb : Bytes l) (hrb : rb < 256) :
    Bytes (specDouble rb l) := by
  have hs := bytes_specShift hb
  rw [specDouble]
  split
  · intro i
    by_cases hi : i = l.length - 1
    · subst hi
      rcases eq_or_ne l.length 0 with h0 | h0
      · rw [List.getD_eq_default]
        · omega
        · simp [specShift, h0]
      · rw [getD_set_self _ (by simp [specShift]; omega)]
        have e : (2 : Nat) ^ 8 = 256 := by norm_num
        exact e ▸ Nat.xor_lt_two_pow (e.symm ▸ hs (l.length - 1)) (e.symm ▸ hrb)
    · rw [getD_set_ne _ (Ne.symm hi)]
      exact hs i
  · exact hs

theorem length_specShift (l : List Nat) : (specShift l).length = l.length := by
  simp [specShift]

theorem gensubkey_eq_specDouble {l : List Nat} {rb : Nat} (hb : Bytes l)
    (hrb : rb < 256) : gensubkey l rb = specDouble rb l := by
  rw [gensubkey, shifted_eq_specShift l hb, specDouble, length_specShift]
  have hhead : l.headD 0 < 256 := by
    rw [← getD_zero_eq_headD]
    exact hb 0
  by_cases hmsb : 128 ≤ l.headD 0
  · rw [if_pos hmsb]
    have hdiv : l.headD 0 / 128 = 1 := by omega
    rw [hdiv]
    simp [constantTimeSelect, Nat.mod_eq_of_lt hrb]
  · rw [if_neg hmsb]
    have hdiv : l.headD 0 / 128 = 0 := by omega
    rw [hdiv]
    rw [show constantTimeSelect 0 rb 0 = 0 from rfl]
    simp only [Nat.zero_mod, Nat.xor_zero]
    exact set_getD_self _ _

/-- C3: subkey derivation encrypts the zero block into `L` and produces
`K1 = double(L)`, `K2 = double(K1)` with the specification's doubling rule
(`specDouble`), using `Rb = 0x87` for 16-byte blocks and `0x1b` for 8-byte
blocks. -/
theorem claim_subkey_derivation (c : BlockCipher) (ks : List Nat × List Nat)
    (hc : GoodCipher c) (hks : gensubkeys c = some ks) :
    (c.blockSize = 8 ∨ c.blockSize = 16) ∧
    ks.1 = specDouble (if c.blockSize = 16 then 0x87 else 0x1b)
      (c.encrypt (List.replicate c.blockSize 0)) ∧
    ks.2 = specDouble (if c.blockSize = 16 then 0x87 else 0x1b) ks.1 := by
  obtain ⟨hbs, h1, h2⟩ := gensubkeys_spec hks
  have hrb : (if c.blockSize = 16 then 0x87 else 0x1b) < 256 := by
    split <;> omega
  have hL : Bytes (c.encrypt (List.replicate c.blockSize 0)) :=
    bytes_of_mem (hc.2 _)
  have h1' : ks.1 = specDouble (if c.blockSize = 16 then 0x87 else 0x1b)
      (c.encrypt (List.replicate c.blockSize 0)) := by
    rw [h1, gensubkey_eq_specDouble hL hrb]
  refine ⟨hbs, h1', ?_⟩
  rw [h2, h1', gensubkey_eq_specDouble (bytes_specDouble hL hrb) hrb, ← h1']

/-- Witness for C3 on the sample cipher. -/
theorem claim_subkey_derivation_witness :
    (sampleCipher.blockSize = 8 ∨ sampleCipher.blockSize = 16) ∧
    ([26, 26, 26, 26, 26, 26, 26, 26],
      [52, 52, 52, 52, 52, 52, 52, 52]).1 =
      specDouble (if sampleCipher.blockSize = 16 then 0x87 else 0x1b)
        (sampleCipher.encrypt (List.replicate sampleCipher.blockSize 0)) ∧
    ([26, 26, 26, 26, 26, 26, 26, 26],
      [52, 52, 52, 52, 52, 52, 52, 52]).2 =
      specDouble (if sampleCipher.blockSize = 16 then 0x87 else 0x1b)
        ([26, 26, 26, 26, 26, 26, 26, 26],
          [52, 52, 52, 52, 52, 52, 52, 52]).1 :=
  claim_subkey_derivation sampleCipher _ sampleCipher_good (by decide)

/-! ## Cursor variant refines the append variant (C9) -/

theorem cwLoop_base {c : BlockCipher} {buf x : List Nat} {cur : Nat} {b : List Nat}
    (h : ¬(b ≠ [] ∧ 0 < buf.length)) : cwLoop c buf x cur b = (buf, x, cur) := by
  conv_lhs => rw [cwLoop]
  rw [dif_neg h]

theorem cwLoop_step {c : BlockCipher} {buf x : List Nat} {cur : Nat} {b : List Nat}
    (h : b ≠ [] ∧ 0 < buf.length) :
    cwLoop c buf x cur b =
      cwLoop c
        (b.take (min buf.length b.length) ++
          (xorRange buf.length buf x).drop (min buf.length b.length))
        (c.encrypt (xorRange buf.length buf x))
        (min buf.length b.length)
        (b.drop (min buf.length b.length)) := by
  conv_lhs => rw [cwLoop]
  rw [dif_pos h]
  simp only [length_xorRange]

theorem cwLoop_writeLoop {c : BlockCipher} (hc : GoodCipher c) (hbs : 0 < c.blockSize) :
    ∀ (N : Nat) (b buf x : List Nat) (cur : Nat), b.length ≤ N →
      buf.length = c.blockSize → x.length = c.blockSize → cur ≤ c.blockSize →
      (b ≠ [] → cur = c.blockSize) →
      (cwLoop c buf x cur b).2.1 = (writeLoop c x (buf.take cur ++ b)).1 ∧
      ((cwLoop c buf x cur b).1).take (cwLoop c buf x cur b).2.2 =
        (writeLoop c x (buf.take cur ++ b)).2 ∧
      ((cwLoop c buf x cur b).1).length = c.blockSize ∧
      (cwLoop c buf x cur b).2.2 ≤ c.blockSize := by
  intro N
  induction N with
  | zero =>
    intro b buf x cur hN h1 h2 h3 h4
    have hb : b = [] := List.length_eq_zero.mp (by omega)
    subst hb
    rw [cwLoop_base (by simp), List.append_nil,
      writeLoop_of_le (by simp [List.length_take]; omega)]
    exact ⟨rfl, rfl, h1, h3⟩
  | succ N ihN =>
    intro b buf x cur hN h1 h2 h3 h4
    by_cases hb : b = []
    · subst hb
      rw [cwLoop_base (by simp), List.append_nil,
        writeLoop_of_le (by simp [List.length_take]; omega)]
      exact ⟨rfl, rfl, h1, h3⟩
    · have hcur : cur = c.blockSize := h4 hb
      have hbpos : 0 < b.length := List.length_pos.mpr hb
      have hnlow : 1 ≤ min buf.length b.length := by omega
      have hnb : min buf.length b.length ≤ b.length := Nat.min_le_right _ _
      have hnbs : min buf.length b.length ≤ c.blockSize := by omega
      -- the cursor buffer is exactly full, so `take cur` is the whole buffer
      have htake : buf.take cur = buf := by
        rw [hcur, ← h1]
        exact List.take_length _
      -- one step of the append-variant loop
      have hwstep : writeLoop c x (buf ++ b) =
          writeLoop c (c.encrypt (xorRange buf.length buf x)) b := by
        rw [writeLoop_step ⟨by simp only [List.length_append]; omega, hbs⟩]
        congr 1
        · rw [blockStep, show (buf ++ b).take c.blockSize = buf by
            rw [← h1]; exact List.take_left _ _]
          rw [xorRange_comm, h1]
        · rw [← h1]
          exact List.drop_left _ _
      -- the refilled cursor buffer agrees with the remaining input on its prefix
      have hpref : (b.take (min buf.length b.length) ++
            (xorRange buf.length buf x).drop (min buf.length b.length)).take
              (min buf.length b.length) ++ b.drop (min buf.length b.length) = b := by
        rw [List.take_append_of_le_length (by simp [List.length_take]),
          List.take_take, min_self, List.take_append_drop]
      obtain ⟨e1, e2, e3, e4⟩ := ihN (b.drop (min buf.length b.length))
        (b.take (min buf.length b.length) ++
          (xorRange buf.length buf x).drop (min buf.length b.length))
        (c.encrypt (xorRange buf.length buf x))
        (min buf.length b.length)
        (by simp only [List.length_drop]; omega)
        (by simp only [List.length_append, List.length_take, List.length_drop,
              length_xorRange]; omega)
        (hc.1 _)
        hnbs
        (by intro hd
            have : min buf.length b.length < b.length := by
              have := List.length_pos.mpr hd
              simp only [List.length_drop] at this
              omega
            omega)
      rw [hpref] at e1 e2
      rw [cwLoop_step ⟨hb, by omega⟩, htake, hwstep]
      exact ⟨e1, e2, e3, e4⟩

theorem getD_range_map {n i : Nat} (f : Nat → Nat) (h : i < n) :
    ((List.range n).map f).getD i 0 = f i := by
  rw [List.getD_eq_getElem _ _ (by simpa using h)]
  simp

/-- The simulation relation between a cursor-variant state and an
append-variant state: same subkeys and chaining value, block-size buffer with
cursor within bounds, and the append variant's pending buffer is exactly the
first `cursor` bytes of the cursor variant's buffer. -/
def SimR (c : BlockCipher) (cst : CursorState) (st : CmacState) : Prop :=
  cst.k1 = st.k1 ∧ cst.k2 = st.k2 ∧ cst.x = st.x ∧
  cst.buf.length = c.blockSize ∧ cst.cursor ≤ c.blockSize ∧
  st.buf = cst.buf.take cst.cursor ∧ st.x.length = c.blockSize

theorem sim_write {c : BlockCipher} {cst : CursorState} {st : CmacState}
    (hc : GoodCipher c) (hbs : 0 < c.blockSize) (h : SimR c cst st) (b : List Nat) :
    SimR c (cursorWrite c cst b).1 (Write c st b).1 := by
  obtain ⟨hk1, hk2, hx, hblen, hcub, hbuf, hxlen⟩ := h
  have hcxlen : cst.x.length = c.blockSize := by rw [hx]; exact hxlen
  have hn0b : min (cst.buf.length - cst.cursor) b.length ≤ b.length :=
    Nat.min_le_right _ _
  have hn0c : cst.cursor + min (cst.buf.length - cst.cursor) b.length ≤ c.blockSize := by
    omega
  obtain ⟨e1, e2, e3, e4⟩ := cwLoop_writeLoop hc hbs
    (b.drop (min (cst.buf.length - cst.cursor) b.length)).length
    (b.drop (min (cst.buf.length - cst.cursor) b.length))
    (cst.buf.take cst.cursor ++ b.take (min (cst.buf.length - cst.cursor) b.length) ++
      cst.buf.drop (cst.cursor + min (cst.buf.length - cst.cursor) b.length))
    cst.x
    (cst.cursor + min (cst.buf.length - cst.cursor) b.length)
    (Nat.le_refl _)
    (by simp only [List.length_append, List.length_take, List.length_drop]; omega)
    hcxlen
    hn0c
    (by intro hd
        have hlt : min (cst.buf.length - cst.cursor) b.length < b.length := by
          have := List.length_pos.mpr hd
          simp only [List.length_drop] at this
          omega
        omega)
  -- the drained data seen by the two variants is identical
  have hdata : (cst.buf.take cst.cursor ++
          b.take (min (cst.buf.length - cst.cursor) b.length) ++
          cst.buf.drop (cst.cursor + min (cst.buf.length - cst.cursor) b.length)).take
          (cst.cursor + min (cst.buf.length - cst.cursor) b.length) ++
        b.drop (min (cst.buf.length - cst.cursor) b.length) = st.buf ++ b := by
    have hpre : (cst.buf.take cst.cursor ++
          b.take (min (cst.buf.length - cst.cursor) b.length) ++
          cst.buf.drop (cst.cursor + min (cst.buf.length - cst.cursor) b.length)).take
          (cst.cursor + min (cst.buf.length - cst.cursor) b.length) =
        cst.buf.take cst.cursor ++ b.take (min (cst.buf.length - cst.cursor) b.length) := by
      rw [show cst.cursor + min (cst.buf.length - cst.cursor) b.length =
          (cst.buf.take cst.cursor ++
            b.take (min (cst.buf.length - cst.cursor) b.length)).length by
        simp only [List.length_append, List.length_take]
        omega]
      exact List.take_left _ _
    rw [hpre, List.append_assoc, List.take_append_drop, hbuf]
  rw [hdata] at e1 e2
  have hwx : writeLoop c cst.x (st.buf ++ b) = writeLoop c st.x (st.buf ++ b) := by
    rw [hx]
  refine ⟨hk1, hk2, ?_, e3, e4, ?_, writeLoop_x_length hc _ _ hxlen⟩
  · rw [show (Write c st b).1.x = (writeLoop c st.x (st.buf ++ b)).1 from rfl, ← hx]
    exact e1
  · exact (congrArg Prod.snd hwx).symm.trans e2.symm

theorem cursor_scratch_getD {bs cur : Nat} {buf k2 : List Nat} (hlt : cur < bs)
    (hblen : buf.length = bs) :
    ∀ i < bs,
      ((List.range bs).map fun i =>
        if i < cur then buf.getD i 0 ^^^ k2.getD i 0
        else if i = cur then 0x80 ^^^ k2.getD i 0
        else k2.getD i 0).getD i 0 =
      (xorRange bs
        (((buf.take cur).take bs ++ List.replicate (bs - (buf.take cur).length) 0).set
          (buf.take cur).length 0x80) k2).getD i 0 := by
  intro i hi
  rw [getD_range_map _ hi, getD_xorRange _ _ hi]
  have hctake : (buf.take cur).length = cur := by
    simp [List.length_take]
    omega
  have htt : (buf.take cur).take bs = buf.take cur :=
    List.take_of_length_le (by omega)
  rw [htt, hctake]
  rcases Nat.lt_trichotomy i cur with hc | hc | hc
  · rw [if_pos hc, getD_set_ne _ (by omega),
      List.getD_append _ _ _ _ (by rw [hctake]; omega), getD_take_of_lt hc]
  · subst hc
    rw [if_neg (lt_irrefl _), if_pos rfl,
      getD_set_self _ (by simp [List.length_take]; omega)]
  · rw [if_neg (by omega), if_neg (by omega), getD_set_ne _ (by omega),
      List.getD_append_right _ _ _ _ (by rw [hctake]; omega), getD_replicate_zero,
      Nat.zero_xor]

theorem sim_sum {c : BlockCipher} {cst : CursorState} {st : CmacState}
    (hbs2 : c.blockSize = 8 ∨ c.blockSize = 16) (h : SimR c cst st) (b : List Nat) :
    cursorSum c cst b = some (Sum c st b) := by
  obtain ⟨hk1, hk2, hx, hblen, hcub, hbuf, hxlen⟩ := h
  have hbs : 0 < c.blockSize := by rcases hbs2 with h | h <;> omega
  have hstlen : st.buf.length = cst.cursor := by
    rw [hbuf]
    simp [List.length_take]
    omega
  have hguard : cst.cursor = c.blockSize ↔
      (0 < st.buf.length ∧ st.buf.length % c.blockSize = 0) := by
    rw [hstlen]
    constructor
    · intro hceq
      exact ⟨by omega, by rw [hceq]; exact Nat.mod_self _⟩
    · rintro ⟨hpos, hmod⟩
      have hdvd : c.blockSize ∣ cst.cursor := Nat.dvd_of_mod_eq_zero hmod
      have := Nat.le_of_dvd hpos hdvd
      omega
  by_cases hcur : cst.cursor = c.blockSize
  · have hbufeq : st.buf = cst.buf := by
      rw [hbuf, hcur, ← hblen]
      exact List.take_length _
    simp only [cursorSum, if_pos hbs2, if_pos hcur, Sum, sumLast,
      if_pos (hguard.mp hcur)]
    rw [← hx, ← hk1, hbufeq]
  · have hclt : cst.cursor < c.blockSize := lt_of_le_of_ne hcub hcur
    simp only [cursorSum, if_pos hbs2, if_neg hcur, Sum, sumLast,
      if_neg (fun hg => hcur (hguard.mpr hg))]
    rw [← hx, ← hk2, hbuf]
    congr 2
    apply congrArg
    apply xorRange_congr_left
    exact cursor_scratch_getD hclt hblen

theorem sim_foldl {c : BlockCipher} (hc : GoodCipher c) (hbs : 0 < c.blockSize) :
    ∀ (cs : List (List Nat)) (cst : CursorState) (st : CmacState), SimR c cst st →
      SimR c (cs.foldl (fun s ci => (cursorWrite c s ci).1) cst)
        (cs.foldl (fun s ci => (Write c s ci).1) st)
  | [], _, _, h => h
  | ci :: rest, cst, st, h => sim_foldl hc hbs rest _ _ (sim_write hc hbs h ci)

theorem cursorNew_spec {c : BlockCipher} {cst : CursorState} (h : cursorNew c = some cst) :
    ∃ ks, gensubkeys c = some ks ∧
      cst = { k1 := ks.1, k2 := ks.2, buf := List.replicate c.blockSize 0,
              x := List.replicate c.blockSize 0, cursor := 0 } := by
  cases hg : gensubkeys c with
  | none => simp [cursorNew, hg] at h
  | some ks =>
    refine ⟨ks, rfl, ?_⟩
    simp only [cursorNew, hg, Option.map, Option.some_inj] at h
    rw [← h]
    rfl

theorem sim_init {c : BlockCipher} {cst₀ : CursorState} {st₀ : CmacState}
    (hcn : cursorNew c = some cst₀) (hn : newcmac c = some st₀) : SimR c cst₀ st₀ := by
  obtain ⟨ks, hks, hcst⟩ := cursorNew_spec hcn
  obtain ⟨ks', hks', hst⟩ := newcmac_spec hn
  rw [hks] at hks'
  have hkk : ks = ks' := by
    simpa using hks'
  subst hkk
  subst hcst
  subst hst
  exact ⟨rfl, rfl, rfl, by simp, Nat.zero_le _, rfl, by simp⟩

/-- C9: the cursor-based streaming variant and the append-based implementation
produce identical tags: for every cipher both constructions accept, every
chunking of a message fed through their `Write`s, and every output prefix,
the cursor variant's `Sum` returns exactly the append variant's `Sum`. -/
theorem claim_cursor_refinement (c : BlockCipher) (cst₀ : CursorState) (st₀ : CmacState)
    (cs : List (List Nat)) (b : List Nat) (hc : GoodCipher c)
    (hcn : cursorNew c = some cst₀) (hn : newcmac c = some st₀) :
    cursorSum c (cs.foldl (fun s ci => (cursorWrite c s ci).1) cst₀) b =
      some (Sum c (cs.foldl (fun s ci => (Write c s ci).1) st₀) b) := by
  obtain ⟨ks, hks, -⟩ := cursorNew_spec hcn
  have hbs2 := (gensubkeys_spec hks).1
  have hbs : 0 < c.blockSize := by rcases hbs2 with h | h <;> omega
  exact sim_sum hbs2 (sim_foldl hc hbs cs _ _ (sim_init hcn hn)) b

/-- The cursor-variant state `cursorNew` builds over `sampleCipher`. -/
def sampleCursor : CursorState :=
  { k1 := [26, 26, 26, 26, 26, 26, 26, 26]
    k2 := [52, 52, 52, 52, 52, 52, 52, 52]
    buf := [0, 0, 0, 0, 0, 0, 0, 0]
    x := [0, 0, 0, 0, 0, 0, 0, 0]
    cursor := 0 }

/-- Witness for C9: a three-byte chunk on the sample cipher. -/
theorem claim_cursor_refinement_witness :
    cursorSum sampleCipher
        ([[1, 2, 3]].foldl (fun s ci => (cursorWrite sampleCipher s ci).1) sampleCursor)
        [5] =
      some (Sum sampleCipher
        ([[1, 2, 3]].foldl (fun s ci => (Write sampleCipher s ci).1) sampleState) [5]) :=
  claim_cursor_refinement sampleCipher sampleCursor sampleState [[1, 2, 3]] [5]
    sampleCipher_good (by decide) sampleState_new

end cmac
